import Mathlib

/-!
# klogg line position arrays

A shallow embedding of `src/logdata/include/linepositionarray.h`:
the raw offset sequence `SimpleLinePositionStorage` and the wrapper
`LinePosition<SimpleLinePositionStorage>` (`FastLinePositionArray`), followed by the
properties of the line offset index that are checked against that code.

Conventions of the embedding

* `klogg::vector<OffsetInFile>` is a `List OffsetInFile`; the capacity of the vector is not
  part of the model.  Growing the stored vector is taken to succeed; an allocation whose size
  is an argument of the call, `result.reserve( count )` in `range`, fails with
  `std::bad_alloc` when the environment does not grant it.
* C++ exceptions and undefined behaviour are results in `Except Error`.  A member function
  that cannot fail in C++ is a plain function.
* A `const` member function returns its result only; a mutating member function returns the
  new value of `*this`.  An argument passed by `const&` is an argument that is not returned;
  it is an object other than `*this`.
* `linetypes.h` and `containers.h` are not part of the sources at hand.  What the code needs
  of them is collected in `Platform`: the bit width of the unsigned integer under
  `LineNumber` and `LinesCount`, `max_size()` of the vector, and the size of the largest
  block of entries that the allocator grants.
-/

namespace Klogg

/-- Parameters of the declarations that `linepositionarray.h` includes but that are not at hand:
`lineBits` is the width in bits (at most 64) of `LineNumber::UnderlyingType` and
`LinesCount::UnderlyingType`, `maxSize` is `klogg::vector<OffsetInFile>::max_size()`, and
`allocLimit` is the largest number of entries for which the allocator of the vector grants a
block in the environment the code runs in: a larger request throws `std::bad_alloc`. -/
structure Platform where
  lineBits : Nat
  maxSize : Nat
  allocLimit : Nat
  deriving DecidableEq, Repr

/-- A 64-bit platform with 64-bit line numbers, the `max_size()` of a vector of 8-byte
elements whose `difference_type` is 64 bits wide (`PTRDIFF_MAX / 8`), and an allocator that
grants blocks of up to `2^27` entries (1 GiB). -/
def Platform.lp64 : Platform := ⟨64, 2 ^ 60 - 1, 2 ^ 27⟩

/-- The value type `OffsetInFile`: a signed 64-bit position in a file.  The code under study
stores, copies and returns offsets and never computes with them. -/
abbrev OffsetInFile := Int

/-- The ways in which an operation may fail to return. -/
inductive Error where
  /-- `std::out_of_range`, thrown by `vector::at`. -/
  | out_of_range
  /-- `std::length_error`, thrown by `vector::reserve` beyond `max_size()`. -/
  | length_error
  /-- `std::bad_alloc`, thrown by `vector::reserve` when the allocation is not granted. -/
  | bad_alloc
  /-- Undefined behaviour: `pop_back` on an empty vector, signed overflow, a read outside
  the vector. -/
  | undefined
  deriving DecidableEq, Repr

deriving instance DecidableEq for Except

/-- The conversion `static_cast<int64_t>( n )` of an unsigned integer of at most 64 bits. -/
def toInt64 (n : Nat) : Int :=
  ((n : Int) + 2 ^ 63) % 2 ^ 64 - 2 ^ 63

/-- The algorithm `std::copy_n( src.begin() + first, n, std::back_inserter( result ) )` into an
empty `result`: nothing is copied when `n` is not positive, otherwise the `n` elements from
position `first` on are read, which is undefined outside the vector.  The iterator
`src.begin() + first` is a position that is only computed; of itself it is not counted as a
failure, also when it lies beyond the end of the vector. -/
def copy_n (src : List OffsetInFile) (first n : Int) : Except Error (List OffsetInFile) :=
  if n ≤ 0 then .ok []
  else if first < 0 ∨ (src.length : Int) < first + n then .error .undefined
  else .ok ((src.drop first.toNat).take n.toNat)

/-- The class `SimpleLinePositionStorage`: its only member is the vector `storage_`. -/
structure SimpleLinePositionStorage where
  storage_ : List OffsetInFile
  deriving DecidableEq, Repr

namespace SimpleLinePositionStorage

/-- The constructor `SimpleLinePositionStorage()`: an empty vector (with reserved capacity). -/
def construct : SimpleLinePositionStorage := ⟨[]⟩

/-- The member `append( pos )`: `storage_.push_back( pos )`. -/
def append (self : SimpleLinePositionStorage) (pos : OffsetInFile) : SimpleLinePositionStorage :=
  ⟨self.storage_ ++ [pos]⟩

/-- The member `push_back( pos )`: calls `append( pos )`. -/
def push_back (self : SimpleLinePositionStorage) (pos : OffsetInFile) :
    SimpleLinePositionStorage :=
  self.append pos

/-- The member `size()`: `storage_.size()` converted to `LinesCount::UnderlyingType`. -/
def size (P : Platform) (self : SimpleLinePositionStorage) : Nat :=
  self.storage_.length % 2 ^ P.lineBits

/-- The member `allocatedSize()`: `storage_.size() * sizeof( OffsetInFile )` in `size_t`. -/
def allocatedSize (self : SimpleLinePositionStorage) : Nat :=
  (self.storage_.length * 8) % 2 ^ 64

/-- The member `at( i )`: `storage_.at( i )`, which throws `std::out_of_range` when `i` is not
below the size of the vector. -/
def «at» (self : SimpleLinePositionStorage) (i : Nat) : Except Error OffsetInFile :=
  match self.storage_[i]? with
  | some pos => .ok pos
  | none => .error .out_of_range

/-- The member `range( firstLine, count )`: `reserve` of `count` entries throws
`std::length_error` beyond `max_size()` and `std::bad_alloc` when the block is not granted,
the two indices are computed in `int64_t`, where overflow is undefined, and the entries
between them are copied. -/
def range (P : Platform) (self : SimpleLinePositionStorage) (firstLine count : Nat) :
    Except Error (List OffsetInFile) :=
  -- result.reserve( count.get() )
  if P.maxSize < count then .error .length_error
  else if P.allocLimit < count then .error .bad_alloc
  else
    let beginIndex : Int := toInt64 firstLine
    let sum : Int := beginIndex + toInt64 count
    if sum < -(2 ^ 63) ∨ 2 ^ 63 ≤ sum then .error .undefined
    else
      let endIndex : Int := min sum (toInt64 self.storage_.length)
      copy_n self.storage_ beginIndex (endIndex - beginIndex)

/-- The member `append_list( positions )`: inserts the entries of `positions` at the end. -/
def append_list (self positions : SimpleLinePositionStorage) : SimpleLinePositionStorage :=
  ⟨self.storage_ ++ positions.storage_⟩

/-- The member `pop_back()`: `storage_.pop_back()`, undefined on an empty vector. -/
def pop_back (self : SimpleLinePositionStorage) : Except Error SimpleLinePositionStorage :=
  match self.storage_ with
  | [] => .error .undefined
  | _ :: _ => .ok ⟨self.storage_.dropLast⟩

/-- The defaulted move assignment `self = std::move( orig )`: the new value of `self` and the
value `orig` is left with.  The vector of `orig` is taken over and `orig` keeps an empty
one. -/
def move_assign (_self orig : SimpleLinePositionStorage) :
    SimpleLinePositionStorage × SimpleLinePositionStorage :=
  (⟨orig.storage_⟩, ⟨[]⟩)

end SimpleLinePositionStorage

/-- The class `LinePosition<SimpleLinePositionStorage>`. -/
structure LinePosition where
  array : SimpleLinePositionStorage
  fakeFinalLF_ : Bool
  deriving DecidableEq, Repr

namespace LinePosition

/-- The defaulted constructor `LinePosition()`. -/
def construct : LinePosition := ⟨SimpleLinePositionStorage.construct, false⟩

/-- The move assignment `self = std::move( orig )`: the new value of `self` and the value
`orig` is left with. -/
def move_assign (self orig : LinePosition) : LinePosition × LinePosition :=
  let moved := self.array.move_assign orig.array
  (⟨moved.1, orig.fakeFinalLF_⟩, ⟨moved.2, orig.fakeFinalLF_⟩)

/-- The move constructor `LinePosition( LinePosition&& orig )`. -/
def move_construct (orig : LinePosition) : LinePosition × LinePosition :=
  construct.move_assign orig

/-- The member `append( pos )`. -/
def append (self : LinePosition) (pos : OffsetInFile) : Except Error LinePosition := do
  let array ← if self.fakeFinalLF_ then self.array.pop_back else pure self.array
  pure ⟨array.push_back pos, false⟩

/-- The member `size()`. -/
def size (P : Platform) (self : LinePosition) : Nat :=
  self.array.size P

/-- The member `allocatedSize()`. -/
def allocatedSize (self : LinePosition) : Nat :=
  self.array.allocatedSize

/-- The member `at( i )`. -/
def «at» (self : LinePosition) (i : Nat) : Except Error OffsetInFile :=
  self.array.at i

/-- The member `range( firstLine, count )`. -/
def range (P : Platform) (self : LinePosition) (firstLine count : Nat) :
    Except Error (List OffsetInFile) :=
  self.array.range P firstLine count

/-- The member `setFakeFinalLF( finalLF )`. -/
def setFakeFinalLF (self : LinePosition) (finalLF : Bool) : LinePosition :=
  { self with fakeFinalLF_ := finalLF }

/-- The member `append_list( other )`. -/
def append_list (self other : LinePosition) : Except Error LinePosition := do
  let array ← if self.fakeFinalLF_ then self.array.pop_back else pure self.array
  pure ⟨array.append_list other.array, other.fakeFinalLF_⟩

/-- The offsets of a list appended one by one, in order, to an index. -/
def appendAll (self : LinePosition) (offsets : List OffsetInFile) : Except Error LinePosition :=
  offsets.foldlM append self

end LinePosition

/-- The states in which the retract step has an entry to retract: the synthetic-tail flag is
set only when there is an entry. -/
def LinePosition.WellFormed (idx : LinePosition) : Prop :=
  idx.fakeFinalLF_ = true → idx.array.storage_ ≠ []

instance (idx : LinePosition) : Decidable idx.WellFormed := by
  unfold LinePosition.WellFormed
  infer_instance

/-- A list of offsets is strictly increasing. -/
def StrictlyIncreasing (offsets : List OffsetInFile) : Prop :=
  offsets.Pairwise (· < ·)

instance (offsets : List OffsetInFile) : Decidable (StrictlyIncreasing offsets) := by
  unfold StrictlyIncreasing
  infer_instance

/-- The capacity that the constructor reserves, `storage_.reserve( 10000 )`: a freshly
constructed `SimpleLinePositionStorage` has allocated at least this many entry slots. -/
def SimpleLinePositionStorage.reservedCapacity : Nat := 10000

/-- The three states that the specification names for the line offset index. -/
inductive State where
  /-- No entries, flag clear. -/
  | Empty
  /-- The last entry is the position of a genuine line terminator. -/
  | RealTail
  /-- The last entry is a placeholder for the end of the file. -/
  | SyntheticTail
  deriving DecidableEq, Repr

/-- The state of an index, if it is in one of the three: no entries and the flag set is none
of them. -/
def LinePosition.state (idx : LinePosition) : Option State :=
  match idx.array.storage_, idx.fakeFinalLF_ with
  | [], false => some .Empty
  | [], true => none
  | _ :: _, false => some .RealTail
  | _ :: _, true => some .SyntheticTail

/-- The indices built from a freshly constructed one by `append`, by `append_list` of an
argument whose flag is set only if it has an entry, and by `setFakeFinalLF( true )` called
right after an `append`. -/
inductive LinePosition.Built : LinePosition → Prop where
  | construct : LinePosition.Built LinePosition.construct
  | append (idx result : LinePosition) (pos : OffsetInFile) :
      LinePosition.Built idx → idx.append pos = .ok result → LinePosition.Built result
  | markSyntheticTail (idx result : LinePosition) (pos : OffsetInFile) :
      LinePosition.Built idx → idx.append pos = .ok result →
        LinePosition.Built (result.setFakeFinalLF true)
  | append_list (idx other result : LinePosition) :
      LinePosition.Built idx → other.WellFormed → idx.append_list other = .ok result →
        LinePosition.Built result

/-- Tailing a file: the offsets `scanned` are appended to a fresh index, the placeholder
`fileEnd` is appended and marked as synthetic tail, and the next chunk is merged in. -/
def LinePosition.tailThenMerge (scanned : List OffsetInFile) (fileEnd : OffsetInFile)
    (chunk : LinePosition) : Except Error LinePosition := do
  let index ← LinePosition.construct.appendAll scanned
  let index ← index.append fileEnd
  (index.setFakeFinalLF true).append_list chunk

/-- Two chunks folded into an index one at a time: `X.append_list( A )`, then
`X.append_list( B )`. -/
def LinePosition.mergeOneByOne (X A B : LinePosition) : Except Error LinePosition := do
  let X ← X.append_list A
  X.append_list B

/-- Two chunks merged first, `A.append_list( B )`, and then folded into the index,
`X.append_list( A )`. -/
def LinePosition.mergeChunksFirst (X A B : LinePosition) : Except Error LinePosition := do
  let A ← A.append_list B
  X.append_list A

/-- The entries of a chunk appended to an index one by one with `append`, after which the
flag of the index is set to the flag of the chunk. -/
def LinePosition.appendEach (X C : LinePosition) : Except Error LinePosition := do
  let X ← X.appendAll C.array.storage_
  pure (X.setFakeFinalLF C.fakeFinalLF_)

/-! ## Auxiliary facts about the embedding -/

theorem SimpleLinePositionStorage.pop_back_snoc (xs : List OffsetInFile) (t : OffsetInFile) :
    SimpleLinePositionStorage.pop_back ⟨xs ++ [t]⟩ = .ok ⟨xs⟩ := by
  unfold SimpleLinePositionStorage.pop_back
  cases h : xs ++ [t] with
  | nil => simp at h
  | cons a l => simp [← h]

theorem SimpleLinePositionStorage.pop_back_of_ne_nil (s : SimpleLinePositionStorage)
    (h : s.storage_ ≠ []) : s.pop_back = .ok ⟨s.storage_.dropLast⟩ := by
  unfold SimpleLinePositionStorage.pop_back
  cases hs : s.storage_ with
  | nil => exact absurd hs h
  | cons a l => rfl

theorem SimpleLinePositionStorage.at_eq_ok (s : SimpleLinePositionStorage) (i : Nat)
    (h : i < s.storage_.length) : s.at i = .ok (s.storage_.get ⟨i, h⟩) := by
  unfold SimpleLinePositionStorage.at
  simp [List.getElem?_eq_getElem h]

theorem SimpleLinePositionStorage.at_eq_error (s : SimpleLinePositionStorage) (i : Nat)
    (h : s.storage_.length ≤ i) : s.at i = .error .out_of_range := by
  unfold SimpleLinePositionStorage.at
  simp [List.getElem?_eq_none h]

theorem LinePosition.append_real (a : SimpleLinePositionStorage) (pos : OffsetInFile) :
    LinePosition.append ⟨a, false⟩ pos = .ok ⟨⟨a.storage_ ++ [pos]⟩, false⟩ := rfl

theorem LinePosition.append_synthetic (xs : List OffsetInFile) (t pos : OffsetInFile) :
    LinePosition.append ⟨⟨xs ++ [t]⟩, true⟩ pos = .ok ⟨⟨xs ++ [pos]⟩, false⟩ := by
  simp [LinePosition.append, SimpleLinePositionStorage.pop_back_snoc,
    SimpleLinePositionStorage.push_back, SimpleLinePositionStorage.append, bind, Except.bind,
    pure, Except.pure]

theorem LinePosition.appendAll_real (offsets xs : List OffsetInFile) :
    LinePosition.appendAll ⟨⟨xs⟩, false⟩ offsets = .ok ⟨⟨xs ++ offsets⟩, false⟩ := by
  induction offsets generalizing xs with
  | nil => simp [LinePosition.appendAll, pure, Except.pure]
  | cons p ps ih =>
    have step := ih (xs ++ [p])
    simp only [LinePosition.appendAll] at step ⊢
    simp [List.foldlM, LinePosition.append_real, bind, Except.bind, step]

theorem LinePosition.append_list_real (a : SimpleLinePositionStorage) (other : LinePosition) :
    LinePosition.append_list ⟨a, false⟩ other =
      .ok ⟨⟨a.storage_ ++ other.array.storage_⟩, other.fakeFinalLF_⟩ := rfl

theorem LinePosition.append_list_synthetic (xs : List OffsetInFile) (t : OffsetInFile)
    (other : LinePosition) :
    LinePosition.append_list ⟨⟨xs ++ [t]⟩, true⟩ other =
      .ok ⟨⟨xs ++ other.array.storage_⟩, other.fakeFinalLF_⟩ := by
  simp [LinePosition.append_list, SimpleLinePositionStorage.pop_back_snoc,
    SimpleLinePositionStorage.append_list, bind, Except.bind, pure, Except.pure]

theorem LinePosition.size_eq_length (P : Platform) (idx : LinePosition)
    (h : idx.array.storage_.length < 2 ^ P.lineBits) :
    idx.size P = idx.array.storage_.length := by
  simp [LinePosition.size, SimpleLinePositionStorage.size, Nat.mod_eq_of_lt h]

theorem LinePosition.append_ok (idx : LinePosition) (h : idx.WellFormed) (pos : OffsetInFile) :
    idx.append pos =
      .ok ⟨⟨(if idx.fakeFinalLF_ then idx.array.storage_.dropLast else idx.array.storage_) ++
        [pos]⟩, false⟩ := by
  obtain ⟨a, f⟩ := idx
  cases f with
  | false => rfl
  | true =>
    have hne : a.storage_ ≠ [] := h rfl
    simp [LinePosition.append, SimpleLinePositionStorage.pop_back_of_ne_nil a hne,
      SimpleLinePositionStorage.push_back, SimpleLinePositionStorage.append, bind, Except.bind,
      pure, Except.pure]

theorem LinePosition.append_list_ok (idx : LinePosition) (h : idx.WellFormed)
    (other : LinePosition) :
    idx.append_list other =
      .ok ⟨⟨(if idx.fakeFinalLF_ then idx.array.storage_.dropLast else idx.array.storage_) ++
        other.array.storage_⟩, other.fakeFinalLF_⟩ := by
  obtain ⟨a, f⟩ := idx
  cases f with
  | false => rfl
  | true =>
    have hne : a.storage_ ≠ [] := h rfl
    simp [LinePosition.append_list, SimpleLinePositionStorage.pop_back_of_ne_nil a hne,
      SimpleLinePositionStorage.append_list, bind, Except.bind, pure, Except.pure]

theorem LinePosition.append_list_flag_of_ok (idx other result : LinePosition)
    (h : idx.append_list other = .ok result) : result.fakeFinalLF_ = other.fakeFinalLF_ := by
  obtain ⟨a, f⟩ := idx
  cases f with
  | false =>
    rw [LinePosition.append_list_real] at h
    cases h
    rfl
  | true =>
    cases hp : a.pop_back with
    | error e => simp [LinePosition.append_list, hp, bind, Except.bind] at h
    | ok b =>
      simp only [LinePosition.append_list, hp, bind, Except.bind, pure, Except.pure, if_true,
        Except.ok.injEq] at h
      rw [← h]

theorem LinePosition.append_result_of_ok (idx result : LinePosition) (pos : OffsetInFile)
    (h : idx.append pos = .ok result) :
    result.fakeFinalLF_ = false ∧ ∃ front, result.array.storage_ = front ++ [pos] := by
  obtain ⟨a, f⟩ := idx
  cases f with
  | false =>
    rw [LinePosition.append_real] at h
    cases h
    exact ⟨rfl, a.storage_, rfl⟩
  | true =>
    cases hp : a.pop_back with
    | error e => simp [LinePosition.append, hp, bind, Except.bind] at h
    | ok b =>
      simp only [LinePosition.append, hp, bind, Except.bind, pure, Except.pure, if_true,
        Except.ok.injEq] at h
      rw [← h]
      exact ⟨rfl, b.storage_, rfl⟩

theorem LinePosition.append_list_result_of_ok (idx other result : LinePosition)
    (h : idx.append_list other = .ok result) :
    ∃ front, result.array.storage_ = front ++ other.array.storage_ := by
  obtain ⟨a, f⟩ := idx
  cases f with
  | false =>
    rw [LinePosition.append_list_real] at h
    cases h
    exact ⟨a.storage_, rfl⟩
  | true =>
    cases hp : a.pop_back with
    | error e => simp [LinePosition.append_list, hp, bind, Except.bind] at h
    | ok b =>
      simp only [LinePosition.append_list, hp, bind, Except.bind, pure, Except.pure, if_true,
        Except.ok.injEq] at h
      rw [← h]
      exact ⟨b.storage_, rfl⟩

theorem StrictlyIncreasing.lt_of_mem_of_getLast {offsets : List OffsetInFile}
    (h : StrictlyIncreasing offsets) {pos : OffsetInFile}
    (hlast : ∀ l ∈ offsets.getLast?, l < pos) : ∀ x ∈ offsets, x < pos := by
  intro x hx
  rcases List.eq_nil_or_concat offsets with hnil | ⟨front, t, hcat⟩
  · simp [hnil] at hx
  · rw [List.concat_eq_append] at hcat
    subst hcat
    have ht : t < pos := hlast t (by simp)
    rw [StrictlyIncreasing, List.pairwise_append] at h
    rcases List.mem_append.mp hx with hx | hx
    · exact lt_trans (h.2.2 x hx t (by simp)) ht
    · simp at hx
      rw [hx]
      exact ht

theorem StrictlyIncreasing.dropLast {offsets : List OffsetInFile}
    (h : StrictlyIncreasing offsets) : StrictlyIncreasing offsets.dropLast :=
  List.Pairwise.sublist (List.dropLast_sublist offsets) h

theorem LinePosition.appendAll_nil (idx : LinePosition) : idx.appendAll [] = .ok idx := rfl

theorem LinePosition.appendAll_cons (idx : LinePosition) (pos : OffsetInFile)
    (rest : List OffsetInFile) :
    idx.appendAll (pos :: rest) = (idx.append pos).bind fun next => next.appendAll rest := by
  simp only [LinePosition.appendAll, List.foldlM, bind]

theorem LinePosition.appendAll_cons_ok (idx : LinePosition) (h : idx.WellFormed)
    (pos : OffsetInFile) (rest : List OffsetInFile) :
    idx.appendAll (pos :: rest) =
      .ok ⟨⟨(if idx.fakeFinalLF_ then idx.array.storage_.dropLast else idx.array.storage_) ++
        pos :: rest⟩, false⟩ := by
  rw [LinePosition.appendAll_cons, LinePosition.append_ok idx h pos]
  simp [Except.bind, LinePosition.appendAll_real]

theorem LinePosition.Built.toWellFormed {idx : LinePosition} (h : LinePosition.Built idx) :
    idx.WellFormed := by
  induction h with
  | construct => intro hf; cases hf
  | append idx result pos _ hr _ =>
    intro hf
    rw [(LinePosition.append_result_of_ok idx result pos hr).1] at hf
    cases hf
  | markSyntheticTail idx result pos _ hr _ =>
    intro _
    obtain ⟨front, hfront⟩ := (LinePosition.append_result_of_ok idx result pos hr).2
    simp [LinePosition.setFakeFinalLF, hfront]
  | append_list idx other result _ hother hr _ =>
    intro hf
    rw [LinePosition.append_list_flag_of_ok idx other result hr] at hf
    obtain ⟨front, hfront⟩ := LinePosition.append_list_result_of_ok idx other result hr
    rw [hfront]
    simp [hother hf]

theorem LinePosition.Built.of_real (offsets : List OffsetInFile) :
    LinePosition.Built ⟨⟨offsets⟩, false⟩ := by
  induction offsets using List.reverseRecOn with
  | nil => exact LinePosition.Built.construct
  | append_singleton front pos ih =>
    exact LinePosition.Built.append ⟨⟨front⟩, false⟩ _ pos ih
      (LinePosition.append_real ⟨front⟩ pos)

theorem LinePosition.Built.of_wellFormed (idx : LinePosition) (h : idx.WellFormed) :
    LinePosition.Built idx := by
  obtain ⟨⟨offsets⟩, f⟩ := idx
  cases f with
  | false => exact LinePosition.Built.of_real offsets
  | true =>
    have hne : offsets ≠ [] := h rfl
    rcases List.eq_nil_or_concat offsets with hnil | ⟨front, t, hcat⟩
    · exact absurd hnil hne
    · rw [List.concat_eq_append] at hcat
      subst hcat
      exact LinePosition.Built.markSyntheticTail ⟨⟨front⟩, false⟩ ⟨⟨front ++ [t]⟩, false⟩ t
        (LinePosition.Built.of_real front) (LinePosition.append_real ⟨front⟩ t)

theorem LinePosition.state_isSome_iff (idx : LinePosition) :
    (∃ st, idx.state = some st) ↔ idx.WellFormed := by
  obtain ⟨⟨offsets⟩, f⟩ := idx
  cases offsets <;> cases f <;> simp [LinePosition.state, LinePosition.WellFormed]

/-! ## The claims -/

/-- C1: offsets appended one by one to a freshly constructed index (the synthetic tail is never
marked) are all stored in order: every `append` returns, `at(i)` is the `i`-th appended offset
for every `i < N`, and `size()` is the number `N` of appended offsets, `N` being a number that
`LinesCount` can hold. -/
theorem append_all_size_at (P : Platform) (offsets : List OffsetInFile)
    (hN : offsets.length < 2 ^ P.lineBits) :
    LinePosition.construct.appendAll offsets = .ok ⟨⟨offsets⟩, false⟩ ∧
      LinePosition.size P ⟨⟨offsets⟩, false⟩ = offsets.length ∧
      ∀ (i : Nat) (h : i < offsets.length),
        LinePosition.at ⟨⟨offsets⟩, false⟩ i = .ok (offsets.get ⟨i, h⟩) := by
  refine ⟨?_, ?_, ?_⟩
  · simpa [LinePosition.construct, SimpleLinePositionStorage.construct] using
      LinePosition.appendAll_real offsets []
  · simp [LinePosition.size, SimpleLinePositionStorage.size, Nat.mod_eq_of_lt hN]
  · intro i h
    exact SimpleLinePositionStorage.at_eq_ok ⟨offsets⟩ i h

/-- Witness of C1: `append(4)`, `append(9)` on a fresh index gives `size() == 2`,
`at(0) == 4`, `at(1) == 9` and `range(0, 2) == [4, 9]`. -/
theorem append_all_size_at_witness :
    (([4, 9] : List OffsetInFile).length < 2 ^ Platform.lp64.lineBits ∧
      (LinePosition.construct.appendAll [4, 9] = .ok ⟨⟨[4, 9]⟩, false⟩ ∧
        LinePosition.size Platform.lp64 ⟨⟨[4, 9]⟩, false⟩ = ([4, 9] : List OffsetInFile).length ∧
        ∀ (i : Nat) (h : i < ([4, 9] : List OffsetInFile).length),
          LinePosition.at ⟨⟨[4, 9]⟩, false⟩ i =
            .ok (([4, 9] : List OffsetInFile).get ⟨i, h⟩))) ∧
      LinePosition.size Platform.lp64 ⟨⟨[4, 9]⟩, false⟩ = 2 ∧
      LinePosition.at ⟨⟨[4, 9]⟩, false⟩ 0 = .ok 4 ∧
      LinePosition.at ⟨⟨[4, 9]⟩, false⟩ 1 = .ok 9 ∧
      LinePosition.range Platform.lp64 ⟨⟨[4, 9]⟩, false⟩ 0 2 = .ok [4, 9] :=
  ⟨⟨by decide, append_all_size_at Platform.lp64 [4, 9] (by decide)⟩,
    by decide, by decide, by decide, by decide⟩

/-- C2, the code at the failing input: `range` reserves room for `count` entries before it
clips `count` to the entries that exist.  On the entries `[4, 9]`, `range(0, 2)` and
`range(0, 5)` return the two entries, the second by clipping, but `range(0, 2^60 - 1)` and
`range(0, 2^31)` throw `std::bad_alloc` and, with 64-bit line numbers, `range(0, 2^64 - 1)`
throws `std::length_error`, where the claim promises the same two entries without error;
`range(2^63, 1)` reads outside the vector where the claim promises the empty list. -/
theorem range_reserves_unclipped_count :
    LinePosition.range Platform.lp64 ⟨⟨[4, 9]⟩, false⟩ 0 2 = .ok [4, 9] ∧
      LinePosition.range Platform.lp64 ⟨⟨[4, 9]⟩, false⟩ 0 5 = .ok [4, 9] ∧
      (2 ^ 60 - 1 < 2 ^ Platform.lp64.lineBits ∧
        min (2 ^ 60 - 1) (LinePosition.size Platform.lp64 ⟨⟨[4, 9]⟩, false⟩ - 0) = 2 ∧
        LinePosition.range Platform.lp64 ⟨⟨[4, 9]⟩, false⟩ 0 (2 ^ 60 - 1) =
          .error .bad_alloc) ∧
      LinePosition.range Platform.lp64 ⟨⟨[4, 9]⟩, false⟩ 0 (2 ^ 31) = .error .bad_alloc ∧
      (2 ^ 64 - 1 < 2 ^ Platform.lp64.lineBits ∧
        LinePosition.range Platform.lp64 ⟨⟨[4, 9]⟩, false⟩ 0 (2 ^ 64 - 1) =
          .error .length_error) ∧
      (2 ^ 63 < 2 ^ Platform.lp64.lineBits ∧
        LinePosition.size Platform.lp64 ⟨⟨[4, 9]⟩, false⟩ ≤ 2 ^ 63 ∧
        LinePosition.range Platform.lp64 ⟨⟨[4, 9]⟩, false⟩ (2 ^ 63) 1 = .error .undefined) := by
  decide

/-- C3: on an index whose entries are `xs ++ [t]` and whose synthetic-tail flag is set,
`append(p)` returns with the entries `xs ++ [p]` and the flag cleared: `size()` is unchanged,
the last entry is `p` instead of the placeholder `t`, and the entries before it are the same
as before. -/
theorem append_replaces_synthetic_tail (P : Platform) (xs : List OffsetInFile)
    (t p : OffsetInFile) :
    LinePosition.append ⟨⟨xs ++ [t]⟩, true⟩ p = .ok ⟨⟨xs ++ [p]⟩, false⟩ ∧
      LinePosition.size P ⟨⟨xs ++ [p]⟩, false⟩ = LinePosition.size P ⟨⟨xs ++ [t]⟩, true⟩ ∧
      (xs ++ [p]).getLast? = some p ∧
      (xs ++ [p]).dropLast = (xs ++ [t]).dropLast ∧
      LinePosition.at ⟨⟨xs ++ [p]⟩, false⟩ xs.length = .ok p := by
  refine ⟨LinePosition.append_synthetic xs t p, ?_, ?_, ?_, ?_⟩
  · simp [LinePosition.size, SimpleLinePositionStorage.size]
  · simp
  · simp
  · simp [LinePosition.at, SimpleLinePositionStorage.at]

/-- Witness of C3: entries `[5, 10]` with synthetic tail at `10`, `append(15)` yields
`[5, 15]` with `size() == 2`. -/
theorem append_replaces_synthetic_tail_witness :
    LinePosition.append ⟨⟨[5, 10]⟩, true⟩ 15 = .ok ⟨⟨[5, 15]⟩, false⟩ ∧
      LinePosition.size Platform.lp64 ⟨⟨[5, 15]⟩, false⟩ = 2 ∧
      (10 : OffsetInFile) ∉ ([5, 15] : List OffsetInFile) :=
  ⟨(append_replaces_synthetic_tail Platform.lp64 [5] 10 15).1, by decide, by decide⟩

/-- C4: for two indices `A` and `B` whose synthetic-tail flags are both clear,
`A.append_list(B)` returns and leaves `A` with the entries of `A` followed by the entries of
`B`, in order: `size()` is the sum of the two sizes (a number that `LinesCount` can hold),
`at(i)` is what `A.at(i)` was for `i < a` and `at(a + j)` is `B.at(j)` for `j < b`.  The
argument `B` is a `const` reference and is not changed. -/
theorem append_list_concatenates (P : Platform) (A B : LinePosition)
    (hA : A.fakeFinalLF_ = false) (hB : B.fakeFinalLF_ = false)
    (hsz : A.array.storage_.length + B.array.storage_.length < 2 ^ P.lineBits) :
    A.append_list B = .ok ⟨⟨A.array.storage_ ++ B.array.storage_⟩, false⟩ ∧
      LinePosition.size P ⟨⟨A.array.storage_ ++ B.array.storage_⟩, false⟩ =
        A.size P + B.size P ∧
      (∀ i : Nat, i < A.size P →
        LinePosition.at ⟨⟨A.array.storage_ ++ B.array.storage_⟩, false⟩ i = A.at i) ∧
      (∀ j : Nat, j < B.size P →
        LinePosition.at ⟨⟨A.array.storage_ ++ B.array.storage_⟩, false⟩ (A.size P + j) =
          B.at j) := by
  have hAs : A.size P = A.array.storage_.length :=
    LinePosition.size_eq_length P A (by omega)
  have hBs : B.size P = B.array.storage_.length :=
    LinePosition.size_eq_length P B (by omega)
  obtain ⟨a, fa⟩ := A
  obtain ⟨b, fb⟩ := B
  simp only at hA hB hsz hAs hBs
  subst hA hB
  refine ⟨rfl, ?_, ?_, ?_⟩
  · rw [hAs, hBs, LinePosition.size_eq_length P _ (by simpa using hsz)]
    simp
  · intro i hi
    rw [hAs] at hi
    simp [LinePosition.at, SimpleLinePositionStorage.at, List.getElem?_append_left hi]
  · intro j _
    rw [hAs]
    simp [LinePosition.at, SimpleLinePositionStorage.at, List.getElem?_append_right]

/-- Witness of C4: merging `[20, 30, 40]` into `[4, 9]`. -/
theorem append_list_concatenates_witness :
    ((LinePosition.mk ⟨[4, 9]⟩ false).fakeFinalLF_ = false ∧
      (LinePosition.mk ⟨[20, 30, 40]⟩ false).fakeFinalLF_ = false ∧
      (LinePosition.mk ⟨[4, 9]⟩ false).array.storage_.length +
        (LinePosition.mk ⟨[20, 30, 40]⟩ false).array.storage_.length <
          2 ^ Platform.lp64.lineBits) ∧
      (LinePosition.mk ⟨[4, 9]⟩ false).append_list ⟨⟨[20, 30, 40]⟩, false⟩ =
        .ok ⟨⟨[4, 9, 20, 30, 40]⟩, false⟩ ∧
      LinePosition.size Platform.lp64 ⟨⟨[4, 9, 20, 30, 40]⟩, false⟩ = 2 + 3 :=
  ⟨⟨by decide, by decide, by decide⟩,
    (append_list_concatenates Platform.lp64 ⟨⟨[4, 9]⟩, false⟩ ⟨⟨[20, 30, 40]⟩, false⟩ rfl rfl
      (by decide)).1,
    by decide⟩

/-- C5: for an index `S` in the synthetic-tail state with entries `xs ++ [t]` and every index
`O`, `S.append_list(O)` returns with the entries `xs` followed by the entries of `O` and with
the flag of `O`: the synthetic entry `t` is retracted before the concatenation, the size is
`size(S) - 1 + size(O)` (all sizes being numbers that `LinesCount` can hold), and merging an
empty `O` shrinks `S` by one entry. -/
theorem append_list_retracts_synthetic_tail (P : Platform) (xs : List OffsetInFile)
    (t : OffsetInFile) (O : LinePosition)
    (hS : xs.length + 1 < 2 ^ P.lineBits)
    (hsz : xs.length + O.array.storage_.length < 2 ^ P.lineBits) :
    LinePosition.append_list ⟨⟨xs ++ [t]⟩, true⟩ O =
        .ok ⟨⟨xs ++ O.array.storage_⟩, O.fakeFinalLF_⟩ ∧
      LinePosition.size P ⟨⟨xs ++ O.array.storage_⟩, O.fakeFinalLF_⟩ =
        LinePosition.size P ⟨⟨xs ++ [t]⟩, true⟩ - 1 + O.size P ∧
      (O.array.storage_ = [] →
        LinePosition.size P ⟨⟨xs ++ O.array.storage_⟩, O.fakeFinalLF_⟩ + 1 =
          LinePosition.size P ⟨⟨xs ++ [t]⟩, true⟩) := by
  have h1 : LinePosition.size P ⟨⟨xs ++ [t]⟩, true⟩ = xs.length + 1 := by
    rw [LinePosition.size_eq_length P _ (by simpa using hS)]
    simp
  have h2 : LinePosition.size P ⟨⟨xs ++ O.array.storage_⟩, O.fakeFinalLF_⟩ =
      xs.length + O.array.storage_.length := by
    rw [LinePosition.size_eq_length P _ (by simpa using hsz)]
    simp
  have h3 : O.size P = O.array.storage_.length := LinePosition.size_eq_length P O (by omega)
  refine ⟨LinePosition.append_list_synthetic xs t O, ?_, ?_⟩
  · rw [h1, h2, h3]
    omega
  · intro hO
    rw [h1, h2, hO]
    simp

/-- Witness of C5: `[5, 10]` with synthetic tail `10` merged with `[12, 17]`. -/
theorem append_list_retracts_synthetic_tail_witness :
    (([5] : List OffsetInFile).length + 1 < 2 ^ Platform.lp64.lineBits ∧
      ([5] : List OffsetInFile).length +
        (LinePosition.mk ⟨[12, 17]⟩ false).array.storage_.length <
          2 ^ Platform.lp64.lineBits) ∧
      LinePosition.append_list ⟨⟨[5, 10]⟩, true⟩ ⟨⟨[12, 17]⟩, false⟩ =
        .ok ⟨⟨[5, 12, 17]⟩, false⟩ ∧
      LinePosition.append_list ⟨⟨[5, 10]⟩, true⟩ ⟨⟨[]⟩, false⟩ = .ok ⟨⟨[5]⟩, false⟩ :=
  ⟨⟨by decide, by decide⟩,
    (append_list_retracts_synthetic_tail Platform.lp64 [5] 10 ⟨⟨[12, 17]⟩, false⟩ (by decide)
      (by decide)).1,
    by decide⟩

/-- C6: after `D.append_list(C)` the synthetic-tail flag of `D` is the flag `C` had, whatever
the flag of `D` was before; the call returns whenever `D` has an entry to retract.  When a
synthetic-tailed `C` (entries `ys ++ [t]`, flag set) is merged into a non-synthetic `D`, `D`
is synthetic-tailed afterwards, and a following `D.append(p)` puts `p` in the place of the
last entry instead of adding an entry. -/
theorem append_list_inherits_flag (D C : LinePosition) :
    (∀ D' : LinePosition, D.append_list C = .ok D' → D'.fakeFinalLF_ = C.fakeFinalLF_) ∧
      (D.WellFormed →
        ∃ D' : LinePosition, D.append_list C = .ok D' ∧ D'.fakeFinalLF_ = C.fakeFinalLF_) ∧
      (∀ (ys : List OffsetInFile) (t p : OffsetInFile),
        D.fakeFinalLF_ = false → C = ⟨⟨ys ++ [t]⟩, true⟩ →
          ∃ D' : LinePosition, D.append_list C = .ok D' ∧ D'.fakeFinalLF_ = true ∧
            D'.array.storage_ = D.array.storage_ ++ ys ++ [t] ∧
            D'.append p = .ok ⟨⟨D.array.storage_ ++ ys ++ [p]⟩, false⟩) := by
  refine ⟨fun D' h => LinePosition.append_list_flag_of_ok D C D' h, ?_, ?_⟩
  · intro hD
    exact ⟨_, LinePosition.append_list_ok D hD C, rfl⟩
  · intro ys t p hD hC
    obtain ⟨a, f⟩ := D
    simp only at hD
    subst hD hC
    refine ⟨⟨⟨a.storage_ ++ ys ++ [t]⟩, true⟩, ?_, rfl, rfl, ?_⟩
    · rw [LinePosition.append_list_real]
      simp
    · exact LinePosition.append_synthetic (a.storage_ ++ ys) t p

/-- Witness of C6: the synthetic-tailed `[20, 25]` merged into the non-synthetic `[4, 9]`,
followed by `append(30)`. -/
theorem append_list_inherits_flag_witness :
    ((LinePosition.mk ⟨[4, 9]⟩ false).WellFormed ∧
      (LinePosition.mk ⟨[4, 9]⟩ false).fakeFinalLF_ = false) ∧
      (∃ D' : LinePosition,
        (LinePosition.mk ⟨[4, 9]⟩ false).append_list ⟨⟨[20, 25]⟩, true⟩ = .ok D' ∧
          D'.fakeFinalLF_ = (LinePosition.mk ⟨[20, 25]⟩ true).fakeFinalLF_) ∧
      (∃ D' : LinePosition,
        (LinePosition.mk ⟨[4, 9]⟩ false).append_list ⟨⟨[20, 25]⟩, true⟩ = .ok D' ∧
          D'.fakeFinalLF_ = true ∧
          D'.array.storage_ = (LinePosition.mk ⟨[4, 9]⟩ false).array.storage_ ++ [20] ++ [25] ∧
          D'.append 30 =
            .ok ⟨⟨(LinePosition.mk ⟨[4, 9]⟩ false).array.storage_ ++ [20] ++ [30]⟩, false⟩) :=
  ⟨⟨by decide, by decide⟩,
    (append_list_inherits_flag ⟨⟨[4, 9]⟩, false⟩ ⟨⟨[20, 25]⟩, true⟩).2.1 (by decide),
    (append_list_inherits_flag ⟨⟨[4, 9]⟩, false⟩ ⟨⟨[20, 25]⟩, true⟩).2.2 [20] 25 30 rfl rfl⟩

/-- C7: for every index whose number of entries `LinesCount` can hold, and for the raw offset
sequence inside it, `at(i)` fails with the out-of-range error exactly when `i >= size()`, it
fails in no other way, and for `i < size()` it returns the stored entry `i`.  `at` is a
`const` member: it returns a value and changes nothing. -/
theorem at_out_of_range_iff (P : Platform) (idx : LinePosition) (i : Nat)
    (hsz : idx.array.storage_.length < 2 ^ P.lineBits) :
    (idx.at i = .error .out_of_range ↔ idx.size P ≤ i) ∧
      (idx.array.at i = .error .out_of_range ↔ idx.array.size P ≤ i) ∧
      (∀ e : Error, idx.at i = .error e → e = .out_of_range) ∧
      (∀ h : i < idx.array.storage_.length,
        idx.at i = .ok (idx.array.storage_.get ⟨i, h⟩)) ∧
      (i < idx.size P → i < idx.array.storage_.length) := by
  have hsize : idx.size P = idx.array.storage_.length := LinePosition.size_eq_length P idx hsz
  have hsize' : idx.array.size P = idx.array.storage_.length := hsize
  have key : idx.array.at i = .error .out_of_range ↔ idx.array.storage_.length ≤ i := by
    constructor
    · intro h
      by_contra hlt
      rw [SimpleLinePositionStorage.at_eq_ok _ _ (Nat.lt_of_not_le hlt)] at h
      cases h
    · exact SimpleLinePositionStorage.at_eq_error _ _
  refine ⟨?_, ?_, ?_, ?_, ?_⟩
  · rw [hsize]
    exact key
  · rw [hsize']
    exact key
  · intro e he
    by_cases hlt : i < idx.array.storage_.length
    · rw [LinePosition.at, SimpleLinePositionStorage.at_eq_ok _ _ hlt] at he
      cases he
    · rw [LinePosition.at, SimpleLinePositionStorage.at_eq_error _ _ (Nat.le_of_not_lt hlt)] at he
      cases he
      rfl
  · intro h
    exact SimpleLinePositionStorage.at_eq_ok _ _ h
  · intro h
    rw [hsize] at h
    exact h

/-- Witness of C7: `at(2)` on the entries `[4, 9]` is out of range, `at(1)` is `9`. -/
theorem at_out_of_range_iff_witness :
    (LinePosition.mk ⟨[4, 9]⟩ false).array.storage_.length < 2 ^ Platform.lp64.lineBits ∧
      ((LinePosition.mk ⟨[4, 9]⟩ false).at 2 = .error .out_of_range ↔
        (LinePosition.mk ⟨[4, 9]⟩ false).size Platform.lp64 ≤ 2) ∧
      (LinePosition.mk ⟨[4, 9]⟩ false).at 2 = .error .out_of_range ∧
      (LinePosition.mk ⟨[4, 9]⟩ false).at 1 = .ok 9 :=
  ⟨by decide,
    (at_out_of_range_iff Platform.lp64 ⟨⟨[4, 9]⟩, false⟩ 2 (by decide)).1,
    by decide, by decide⟩

/-- C9: after index `X` is moved into index `Y`, by move assignment or by move construction,
`Y` holds exactly the entries `X` had, in the same order, and the synthetic-tail flag `X` had,
and `X` is left without entries: its `size()` is 0. -/
theorem move_transfers_entries (P : Platform) (X Y : LinePosition) :
    (Y.move_assign X).1.array.storage_ = X.array.storage_ ∧
      (Y.move_assign X).1.fakeFinalLF_ = X.fakeFinalLF_ ∧
      (Y.move_assign X).1 = X ∧
      (Y.move_assign X).2.array.storage_ = [] ∧
      (Y.move_assign X).2.size P = 0 ∧
      (LinePosition.move_construct X).1 = X ∧
      (LinePosition.move_construct X).2.array.storage_ = [] ∧
      (LinePosition.move_construct X).2.size P = 0 := by
  refine ⟨rfl, rfl, rfl, rfl, ?_, rfl, rfl, ?_⟩ <;>
    simp [LinePosition.move_assign, LinePosition.move_construct,
      SimpleLinePositionStorage.move_assign, LinePosition.size, SimpleLinePositionStorage.size]

/-- C10: the strictly increasing order of the entries is kept by the two mutations under
their documented preconditions.  If the entries of an index are strictly increasing, then
(a) `append(pos)` with `pos` greater than the current last entry, and (b)
`append_list(other)` where the entries of `other` are strictly increasing and all greater
than every entry of this index, leave the entries strictly increasing whenever they return,
and they return in every state that has an entry to retract, the synthetic-tail state
included. -/
theorem strictly_increasing_preserved (idx : LinePosition)
    (hinc : StrictlyIncreasing idx.array.storage_) :
    (∀ pos : OffsetInFile, (∀ l ∈ idx.array.storage_.getLast?, l < pos) →
        (∀ r : LinePosition, idx.append pos = .ok r → StrictlyIncreasing r.array.storage_) ∧
        (idx.WellFormed →
          ∃ r : LinePosition, idx.append pos = .ok r ∧
            StrictlyIncreasing r.array.storage_)) ∧
      (∀ other : LinePosition, StrictlyIncreasing other.array.storage_ →
        (∀ x ∈ idx.array.storage_, ∀ y ∈ other.array.storage_, x < y) →
        (∀ r : LinePosition, idx.append_list other = .ok r →
          StrictlyIncreasing r.array.storage_) ∧
        (idx.WellFormed →
          ∃ r : LinePosition, idx.append_list other = .ok r ∧
            StrictlyIncreasing r.array.storage_)) := by
  have hfront : StrictlyIncreasing
      (if idx.fakeFinalLF_ then idx.array.storage_.dropLast else idx.array.storage_) := by
    split
    · exact hinc.dropLast
    · exact hinc
  have hsub : ∀ x ∈ (if idx.fakeFinalLF_ then idx.array.storage_.dropLast
      else idx.array.storage_), x ∈ idx.array.storage_ := by
    intro x hx
    split at hx
    · exact List.mem_of_mem_dropLast hx
    · exact hx
  have happ : ∀ pos : OffsetInFile, (∀ l ∈ idx.array.storage_.getLast?, l < pos) →
      idx.WellFormed → ∃ r : LinePosition, idx.append pos = .ok r ∧
        StrictlyIncreasing r.array.storage_ := by
    intro pos hlast hwf
    refine ⟨_, LinePosition.append_ok idx hwf pos, ?_⟩
    simp only [StrictlyIncreasing, List.pairwise_append]
    refine ⟨hfront, by simp, ?_⟩
    intro x hx y hy
    simp only [List.mem_singleton] at hy
    rw [hy]
    exact hinc.lt_of_mem_of_getLast hlast x (hsub x hx)
  have hlist : ∀ other : LinePosition, StrictlyIncreasing other.array.storage_ →
      (∀ x ∈ idx.array.storage_, ∀ y ∈ other.array.storage_, x < y) →
      idx.WellFormed → ∃ r : LinePosition, idx.append_list other = .ok r ∧
        StrictlyIncreasing r.array.storage_ := by
    intro other hother hlt hwf
    refine ⟨_, LinePosition.append_list_ok idx hwf other, ?_⟩
    simp only [StrictlyIncreasing, List.pairwise_append]
    exact ⟨hfront, hother, fun x hx y hy => hlt x (hsub x hx) y hy⟩
  refine ⟨fun pos hlast => ⟨?_, happ pos hlast⟩,
    fun other hother hlt => ⟨?_, hlist other hother hlt⟩⟩
  · intro r hr
    by_cases hwf : idx.WellFormed
    · obtain ⟨r', hr', hinc'⟩ := happ pos hlast hwf
      rw [hr] at hr'
      cases hr'
      exact hinc'
    · exfalso
      obtain ⟨a, f⟩ := idx
      simp only [LinePosition.WellFormed, Classical.not_imp, not_not] at hwf
      obtain ⟨hf, hnil⟩ := hwf
      subst hf
      simp [LinePosition.append, SimpleLinePositionStorage.pop_back, hnil, bind, Except.bind]
        at hr
  · intro r hr
    by_cases hwf : idx.WellFormed
    · obtain ⟨r', hr', hinc'⟩ := hlist other hother hlt hwf
      rw [hr] at hr'
      cases hr'
      exact hinc'
    · exfalso
      obtain ⟨a, f⟩ := idx
      simp only [LinePosition.WellFormed, Classical.not_imp, not_not] at hwf
      obtain ⟨hf, hnil⟩ := hwf
      subst hf
      simp [LinePosition.append_list, SimpleLinePositionStorage.pop_back, hnil, bind,
        Except.bind] at hr

/-- Witness of C10: `[5, 10]` with synthetic tail `10`: `append(15)` and the merge of
`[12, 17]` both leave strictly increasing entries. -/
theorem strictly_increasing_preserved_witness :
    (StrictlyIncreasing (LinePosition.mk ⟨[5, 10]⟩ true).array.storage_ ∧
      (∀ l ∈ (LinePosition.mk ⟨[5, 10]⟩ true).array.storage_.getLast?, l < 15) ∧
      (LinePosition.mk ⟨[5, 10]⟩ true).WellFormed) ∧
      (∃ r : LinePosition, (LinePosition.mk ⟨[5, 10]⟩ true).append 15 = .ok r ∧
        StrictlyIncreasing r.array.storage_) ∧
      (LinePosition.mk ⟨[5, 10]⟩ true).append 15 = .ok ⟨⟨[5, 15]⟩, false⟩ ∧
      (StrictlyIncreasing (LinePosition.mk ⟨[12, 17]⟩ false).array.storage_ ∧
        ∀ x ∈ (LinePosition.mk ⟨[5, 10]⟩ true).array.storage_,
          ∀ y ∈ (LinePosition.mk ⟨[12, 17]⟩ false).array.storage_, x < y) ∧
      (∃ r : LinePosition,
        (LinePosition.mk ⟨[5, 10]⟩ true).append_list ⟨⟨[12, 17]⟩, false⟩ = .ok r ∧
          StrictlyIncreasing r.array.storage_) ∧
      (LinePosition.mk ⟨[5, 10]⟩ true).append_list ⟨⟨[12, 17]⟩, false⟩ =
        .ok ⟨⟨[5, 12, 17]⟩, false⟩ :=
  ⟨⟨by decide, by decide, by decide⟩,
    ((strictly_increasing_preserved ⟨⟨[5, 10]⟩, true⟩ (by decide)).1 15 (by decide)).2
      (by decide),
    by decide,
    ⟨by decide, by decide⟩,
    ((strictly_increasing_preserved ⟨⟨[5, 10]⟩, true⟩ (by decide)).2 ⟨⟨[12, 17]⟩, false⟩
      (by decide) (by decide)).2 (by decide),
    by decide⟩

/-- C11: `setFakeFinalLF` changes only the flag: the stored entries stay as they are, and
`size()`, `at(i)`, `range(firstLine, count)` and `allocatedSize()` return after the call what
they returned before it, for every index and every argument. -/
theorem setFakeFinalLF_changes_only_flag (P : Platform) (idx : LinePosition) (finalLF : Bool)
    (i firstLine count : Nat) :
    (idx.setFakeFinalLF finalLF).array = idx.array ∧
      (idx.setFakeFinalLF finalLF).fakeFinalLF_ = finalLF ∧
      (idx.setFakeFinalLF finalLF).size P = idx.size P ∧
      (idx.setFakeFinalLF finalLF).at i = idx.at i ∧
      (idx.setFakeFinalLF finalLF).range P firstLine count = idx.range P firstLine count ∧
      (idx.setFakeFinalLF finalLF).allocatedSize = idx.allocatedSize :=
  ⟨rfl, rfl, rfl, rfl, rfl, rfl⟩

/-- Witness of C11: on the entries `[5, 10]` with `10` marked as synthetic tail, the tail is
counted by `size()` and returned by `at(1)` and `range(0, 2)`. -/
theorem setFakeFinalLF_changes_only_flag_witness :
    ((LinePosition.mk ⟨[5, 10]⟩ false).setFakeFinalLF true).at 1 =
        (LinePosition.mk ⟨[5, 10]⟩ false).at 1 ∧
      ((LinePosition.mk ⟨[5, 10]⟩ false).setFakeFinalLF true).size Platform.lp64 = 2 ∧
      ((LinePosition.mk ⟨[5, 10]⟩ false).setFakeFinalLF true).at 1 = .ok 10 ∧
      ((LinePosition.mk ⟨[5, 10]⟩ false).setFakeFinalLF true).range Platform.lp64 0 2 =
        .ok [5, 10] ∧
      ((LinePosition.mk ⟨[5, 10]⟩ false).setFakeFinalLF true).allocatedSize = 16 :=
  ⟨(setFakeFinalLF_changes_only_flag Platform.lp64 ⟨⟨[5, 10]⟩, false⟩ true 1 0 2).2.2.2.1,
    by decide, by decide, by decide, by decide⟩

/-- C12, refuted as stated: a freshly constructed raw offset sequence has reserved 10000
entry slots, that is 80000 bytes, and its `allocatedSize()` is 0. -/
theorem allocated_size_counterexample :
    SimpleLinePositionStorage.construct.allocatedSize = 0 ∧
      LinePosition.construct.allocatedSize = 0 ∧
      8 * SimpleLinePositionStorage.reservedCapacity = 80000 ∧
      SimpleLinePositionStorage.construct.allocatedSize <
        8 * SimpleLinePositionStorage.reservedCapacity := by
  decide

/-- C12, amended: `allocatedSize()` of a raw offset sequence is 8 bytes for every stored
entry, whatever capacity has been reserved: with fewer than `2^61` entries it is 8 times the
number of entries, hence not smaller than `8 * size()`, and equal to `8 * size()` when
`LinesCount` can hold the number of entries; the index returns the same number. -/
theorem allocated_size_counts_entries (P : Platform) (idx : LinePosition)
    (hlen : idx.array.storage_.length < 2 ^ 61) :
    idx.array.allocatedSize = 8 * idx.array.storage_.length ∧
      idx.allocatedSize = idx.array.allocatedSize ∧
      8 * idx.array.size P ≤ idx.array.allocatedSize ∧
      (idx.array.storage_.length < 2 ^ P.lineBits →
        idx.array.allocatedSize = 8 * idx.array.size P) := by
  have h8 : idx.array.allocatedSize = 8 * idx.array.storage_.length := by
    unfold SimpleLinePositionStorage.allocatedSize
    omega
  refine ⟨h8, rfl, ?_, ?_⟩
  · rw [h8]
    have hle : idx.array.size P ≤ idx.array.storage_.length := Nat.mod_le _ _
    omega
  · intro hsz
    rw [h8, SimpleLinePositionStorage.size, Nat.mod_eq_of_lt hsz]

/-- Witness of C12 (amended): three entries take 24 bytes. -/
theorem allocated_size_counts_entries_witness :
    (LinePosition.mk ⟨[4, 9, 12]⟩ false).array.storage_.length < 2 ^ 61 ∧
      (LinePosition.mk ⟨[4, 9, 12]⟩ false).array.allocatedSize =
        8 * (LinePosition.mk ⟨[4, 9, 12]⟩ false).array.storage_.length ∧
      (LinePosition.mk ⟨[4, 9, 12]⟩ false).allocatedSize = 24 :=
  ⟨by decide,
    (allocated_size_counts_entries Platform.lp64 ⟨⟨[4, 9, 12]⟩, false⟩ (by decide)).1,
    by decide⟩

/-- C13, refuted as stated: `pop_back` on an empty raw offset sequence is
`storage_.pop_back()` on an empty vector, which is undefined and raises no out-of-range
error. -/
theorem pop_back_empty_counterexample :
    SimpleLinePositionStorage.construct.storage_ = [] ∧
      SimpleLinePositionStorage.construct.pop_back = .error .undefined ∧
      SimpleLinePositionStorage.construct.pop_back ≠ .error .out_of_range := by
  decide

/-- C13, amended: `pop_back` on an empty raw offset sequence is undefined, the precondition
is not checked; on a non-empty sequence it returns, removes exactly the last entry and leaves
the entries `[0, size() - 1)` unchanged. -/
theorem pop_back_removes_last (s : SimpleLinePositionStorage) :
    (s.storage_ = [] → s.pop_back = .error .undefined) ∧
      (s.storage_ ≠ [] →
        ∃ r : SimpleLinePositionStorage, s.pop_back = .ok r ∧
          r.storage_ = s.storage_.dropLast ∧
          r.storage_.length + 1 = s.storage_.length ∧
          (∀ i : Nat, i < r.storage_.length → r.at i = s.at i) ∧
          r.at r.storage_.length = .error .out_of_range) := by
  constructor
  · intro h
    simp [SimpleLinePositionStorage.pop_back, h]
  · intro h
    refine ⟨⟨s.storage_.dropLast⟩, SimpleLinePositionStorage.pop_back_of_ne_nil s h, rfl, ?_,
      ?_, ?_⟩
    · have : 0 < s.storage_.length := List.length_pos.mpr h
      simp only [List.length_dropLast]
      omega
    · intro i hi
      simp only [List.length_dropLast] at hi
      simp only [SimpleLinePositionStorage.at, List.getElem?_dropLast]
      rw [if_pos hi]
    · exact SimpleLinePositionStorage.at_eq_error _ _ (Nat.le_refl _)

/-- Witness of C13 (amended): `pop_back` on `[4, 9, 12]` leaves `[4, 9]`. -/
theorem pop_back_removes_last_witness :
    (SimpleLinePositionStorage.mk [4, 9, 12]).storage_ ≠ [] ∧
      (∃ r : SimpleLinePositionStorage,
        (SimpleLinePositionStorage.mk [4, 9, 12]).pop_back = .ok r ∧
          r.storage_ = (SimpleLinePositionStorage.mk [4, 9, 12]).storage_.dropLast ∧
          r.storage_.length + 1 = (SimpleLinePositionStorage.mk [4, 9, 12]).storage_.length ∧
          (∀ i : Nat, i < r.storage_.length →
            r.at i = (SimpleLinePositionStorage.mk [4, 9, 12]).at i) ∧
          r.at r.storage_.length = .error .out_of_range) ∧
      (SimpleLinePositionStorage.mk [4, 9, 12]).pop_back = .ok ⟨[4, 9]⟩ :=
  ⟨by decide, (pop_back_removes_last ⟨[4, 9, 12]⟩).2 (by decide), by decide⟩

/-- C14: tailing equivalence.  For every list `L1` of offsets, every placeholder offset `e`
and every chunk index `C`, appending `L1` to a fresh index, then `append(e)` and
`setFakeFinalLF()`, then `append_list(C)` returns the index whose entries are `L1` followed by
the entries of `C` and whose flag is the flag of `C`; for a chunk built from a list `L2` by
`append` this is the index built in one pass by appending `L1 ++ L2`.  The placeholder `e`
does not occur in the result. -/
theorem tailing_equivalence (L1 L2 : List OffsetInFile) (e : OffsetInFile)
    (C : LinePosition) :
    LinePosition.tailThenMerge L1 e C =
        .ok ⟨⟨L1 ++ C.array.storage_⟩, C.fakeFinalLF_⟩ ∧
      LinePosition.construct.appendAll L2 = .ok ⟨⟨L2⟩, false⟩ ∧
      LinePosition.tailThenMerge L1 e ⟨⟨L2⟩, false⟩ = .ok ⟨⟨L1 ++ L2⟩, false⟩ ∧
      LinePosition.tailThenMerge L1 e ⟨⟨L2⟩, false⟩ =
        LinePosition.construct.appendAll (L1 ++ L2) := by
  have hfresh : ∀ offsets : List OffsetInFile,
      LinePosition.construct.appendAll offsets = .ok ⟨⟨offsets⟩, false⟩ := by
    intro offsets
    simpa [LinePosition.construct, SimpleLinePositionStorage.construct] using
      LinePosition.appendAll_real offsets []
  have hmerge : ∀ chunk : LinePosition, LinePosition.tailThenMerge L1 e chunk =
      .ok ⟨⟨L1 ++ chunk.array.storage_⟩, chunk.fakeFinalLF_⟩ := by
    intro chunk
    unfold LinePosition.tailThenMerge
    rw [hfresh L1]
    simp only [bind, Except.bind, LinePosition.append_real, LinePosition.setFakeFinalLF]
    exact LinePosition.append_list_synthetic L1 e chunk
  refine ⟨hmerge C, hfresh L2, hmerge _, ?_⟩
  rw [hmerge, hfresh]

/-- Witness of C14: `[4, 9]` scanned, the file ends at `11` without a terminator, and the
next chunk holds `[14, 20]`. -/
theorem tailing_equivalence_witness :
    LinePosition.tailThenMerge [4, 9] 11 ⟨⟨[14, 20]⟩, false⟩ =
        LinePosition.construct.appendAll ([4, 9] ++ [14, 20]) ∧
      LinePosition.tailThenMerge [4, 9] 11 ⟨⟨[14, 20]⟩, false⟩ =
        .ok ⟨⟨[4, 9, 14, 20]⟩, false⟩ :=
  ⟨(tailing_equivalence [4, 9] [14, 20] 11 ⟨⟨[14, 20]⟩, false⟩).2.2.2, by decide⟩

/-- C15: state invariant.  Every index built from the fresh index by `append`, by
`append_list` of an argument that satisfies the predicate, and by `setFakeFinalLF()` called
right after an `append` satisfies "the synthetic-tail flag is set only if the sequence is
non-empty", so it is in one of the states Empty, RealTail and SyntheticTail; conversely every
index that satisfies the predicate is built in this way, and the three states are: no entries
with the flag clear, entries with the flag clear, entries with the flag set. -/
theorem built_state_invariant (idx : LinePosition) :
    (LinePosition.Built idx →
        idx.WellFormed ∧
          (idx.state = some .Empty ∨ idx.state = some .RealTail ∨
            idx.state = some .SyntheticTail)) ∧
      (idx.WellFormed → LinePosition.Built idx) ∧
      (idx.state = some .Empty ↔ idx.array.storage_ = [] ∧ idx.fakeFinalLF_ = false) ∧
      (idx.state = some .RealTail ↔ idx.array.storage_ ≠ [] ∧ idx.fakeFinalLF_ = false) ∧
      (idx.state = some .SyntheticTail ↔
        idx.array.storage_ ≠ [] ∧ idx.fakeFinalLF_ = true) := by
  refine ⟨?_, LinePosition.Built.of_wellFormed idx, ?_, ?_, ?_⟩
  · intro h
    refine ⟨h.toWellFormed, ?_⟩
    obtain ⟨st, hst⟩ := (LinePosition.state_isSome_iff idx).mpr h.toWellFormed
    rw [hst]
    cases st <;> simp
  all_goals
    obtain ⟨⟨offsets⟩, f⟩ := idx
    cases offsets <;> cases f <;> simp [LinePosition.state]

/-- Witness of C15: the index built by `append(5)`, `append(10)`, `setFakeFinalLF()` is in the
state SyntheticTail. -/
theorem built_state_invariant_witness :
    LinePosition.Built ⟨⟨[5, 10]⟩, true⟩ ∧
      ((LinePosition.mk ⟨[5, 10]⟩ true).WellFormed ∧
        ((LinePosition.mk ⟨[5, 10]⟩ true).state = some .Empty ∨
          (LinePosition.mk ⟨[5, 10]⟩ true).state = some .RealTail ∨
          (LinePosition.mk ⟨[5, 10]⟩ true).state = some .SyntheticTail)) ∧
      (LinePosition.mk ⟨[5, 10]⟩ true).state = some .SyntheticTail :=
  have hb : LinePosition.Built ⟨⟨[5, 10]⟩, true⟩ :=
    LinePosition.Built.markSyntheticTail ⟨⟨[5]⟩, false⟩ ⟨⟨[5, 10]⟩, false⟩ 10
      (LinePosition.Built.append LinePosition.construct ⟨⟨[5]⟩, false⟩ 5
        LinePosition.Built.construct rfl) rfl
  ⟨hb, (built_state_invariant ⟨⟨[5, 10]⟩, true⟩).1 hb, by decide⟩

/-- C16, the code at the failing input: the index `X` with the entry `[5]` marked as
synthetic tail is moved into a fresh `Y`.  `Y` takes over the entry and the flag; `X` is left
without entries and with its flag still set, which is none of the three states, and
`X.append(7)` calls `pop_back` on an empty vector instead of yielding the entries `[7]`. -/
theorem moved_from_keeps_flag :
    (LinePosition.construct.move_assign ⟨⟨[5]⟩, true⟩).1 = ⟨⟨[5]⟩, true⟩ ∧
      (LinePosition.construct.move_assign ⟨⟨[5]⟩, true⟩).2 = ⟨⟨[]⟩, true⟩ ∧
      (LinePosition.construct.move_assign ⟨⟨[5]⟩, true⟩).2 ≠ LinePosition.construct ∧
      (LinePosition.construct.move_assign ⟨⟨[5]⟩, true⟩).2.state = none ∧
      (LinePosition.construct.move_assign ⟨⟨[5]⟩, true⟩).2.append 7 = .error .undefined ∧
      (LinePosition.move_construct ⟨⟨[5]⟩, true⟩).2.append 7 = .error .undefined ∧
      LinePosition.construct.append 7 = .ok ⟨⟨[7]⟩, false⟩ := by
  decide

/-- C17: merging is associative.  For an index `X` and a chunk `A` whose flags are set only
when they have an entry, and every chunk `B`, folding the chunks one at a time,
`X.append_list(A)` then `X.append_list(B)`, and merging the chunks first, `A.append_list(B)`
then `X.append_list(A)`, both return, and they return the same entries and the same flag: the
entries of `X`, `A` and `B` in this order without the synthetic tails of `X` and `A`, and the
flag of `B`. -/
theorem merge_associative (X A B : LinePosition) (hX : X.WellFormed) (hA : A.WellFormed) :
    LinePosition.mergeOneByOne X A B = LinePosition.mergeChunksFirst X A B ∧
      LinePosition.mergeOneByOne X A B =
        .ok ⟨⟨(if X.fakeFinalLF_ then X.array.storage_.dropLast else X.array.storage_) ++
          (if A.fakeFinalLF_ then A.array.storage_.dropLast else A.array.storage_) ++
          B.array.storage_⟩, B.fakeFinalLF_⟩ := by
  have hfirst : ∀ front : List OffsetInFile,
      (LinePosition.mk ⟨front ++ A.array.storage_⟩ A.fakeFinalLF_).append_list B =
        .ok ⟨⟨front ++
          (if A.fakeFinalLF_ then A.array.storage_.dropLast else A.array.storage_) ++
          B.array.storage_⟩, B.fakeFinalLF_⟩ := by
    intro front
    have hwf : (LinePosition.mk ⟨front ++ A.array.storage_⟩ A.fakeFinalLF_).WellFormed := by
      intro hf
      simp [hA hf]
    rw [LinePosition.append_list_ok _ hwf B]
    cases hf : A.fakeFinalLF_ with
    | false => simp
    | true => simp [List.dropLast_append_of_ne_nil front (hA hf)]
  have hleft : LinePosition.mergeOneByOne X A B =
      .ok ⟨⟨(if X.fakeFinalLF_ then X.array.storage_.dropLast else X.array.storage_) ++
        (if A.fakeFinalLF_ then A.array.storage_.dropLast else A.array.storage_) ++
        B.array.storage_⟩, B.fakeFinalLF_⟩ := by
    unfold LinePosition.mergeOneByOne
    rw [LinePosition.append_list_ok X hX A]
    simp only [bind, Except.bind]
    exact hfirst _
  have hright : LinePosition.mergeChunksFirst X A B =
      .ok ⟨⟨(if X.fakeFinalLF_ then X.array.storage_.dropLast else X.array.storage_) ++
        (if A.fakeFinalLF_ then A.array.storage_.dropLast else A.array.storage_) ++
        B.array.storage_⟩, B.fakeFinalLF_⟩ := by
    unfold LinePosition.mergeChunksFirst
    rw [LinePosition.append_list_ok A hA B]
    simp only [bind, Except.bind]
    rw [LinePosition.append_list_ok X hX]
    simp
  exact ⟨hleft.trans hright.symm, hleft⟩

/-- Witness of C17: `X = [5, 10]` and `A = [12, 17]`, both with a synthetic tail, and
`B = [15, 20]`. -/
theorem merge_associative_witness :
    ((LinePosition.mk ⟨[5, 10]⟩ true).WellFormed ∧
      (LinePosition.mk ⟨[12, 17]⟩ true).WellFormed) ∧
      LinePosition.mergeOneByOne ⟨⟨[5, 10]⟩, true⟩ ⟨⟨[12, 17]⟩, true⟩ ⟨⟨[15, 20]⟩, false⟩ =
        LinePosition.mergeChunksFirst ⟨⟨[5, 10]⟩, true⟩ ⟨⟨[12, 17]⟩, true⟩
          ⟨⟨[15, 20]⟩, false⟩ ∧
      LinePosition.mergeOneByOne ⟨⟨[5, 10]⟩, true⟩ ⟨⟨[12, 17]⟩, true⟩ ⟨⟨[15, 20]⟩, false⟩ =
        .ok ⟨⟨[5, 12, 15, 20]⟩, false⟩ :=
  ⟨⟨by decide, by decide⟩,
    (merge_associative ⟨⟨[5, 10]⟩, true⟩ ⟨⟨[12, 17]⟩, true⟩ ⟨⟨[15, 20]⟩, false⟩ (by decide)
      (by decide)).1,
    by decide⟩

/-- C18: `append_list` agrees with repeated `append`.  For an index `X` whose flag is set
only when it has an entry and a chunk `C` with at least one entry, `X.append_list(C)` returns
what calling `X.append(c)` for each entry `c` of `C` in order and then setting the flag of `X`
to the flag of `C` returns.  For a chunk `C` without entries both return, and they differ
exactly when `X` is in the state SyntheticTail: `append_list` drops the last entry of `X` and
the fold keeps it. -/
theorem append_list_agrees_with_appends (X C : LinePosition) (hX : X.WellFormed) :
    (C.array.storage_ ≠ [] → X.append_list C = LinePosition.appendEach X C) ∧
      (C.array.storage_ = [] →
        X.append_list C =
            .ok ⟨⟨if X.fakeFinalLF_ then X.array.storage_.dropLast else X.array.storage_⟩,
              C.fakeFinalLF_⟩ ∧
          LinePosition.appendEach X C = .ok ⟨X.array, C.fakeFinalLF_⟩ ∧
          (X.append_list C ≠ LinePosition.appendEach X C ↔
            X.state = some .SyntheticTail)) := by
  constructor
  · intro hC
    obtain ⟨c, cs, hcs⟩ := List.exists_cons_of_ne_nil hC
    rw [LinePosition.append_list_ok X hX C]
    unfold LinePosition.appendEach
    rw [hcs, LinePosition.appendAll_cons_ok X hX c cs]
    rfl
  · intro hC
    have hlist : X.append_list C =
        .ok ⟨⟨if X.fakeFinalLF_ then X.array.storage_.dropLast else X.array.storage_⟩,
          C.fakeFinalLF_⟩ := by
      rw [LinePosition.append_list_ok X hX C, hC]
      simp
    have heach : LinePosition.appendEach X C = .ok ⟨X.array, C.fakeFinalLF_⟩ := by
      unfold LinePosition.appendEach
      rw [hC, LinePosition.appendAll_nil]
      rfl
    refine ⟨hlist, heach, ?_⟩
    rw [hlist, heach]
    obtain ⟨⟨offsets⟩, f⟩ := X
    cases f with
    | false => cases offsets <;> simp [LinePosition.state]
    | true =>
      have hne : offsets ≠ [] := hX rfl
      have hlen : offsets.dropLast.length ≠ offsets.length := by
        have : 0 < offsets.length := List.length_pos.mpr hne
        simp only [List.length_dropLast]
        omega
      have hneq : offsets.dropLast ≠ offsets := fun h => hlen (congrArg List.length h)
      have hstate : (LinePosition.mk ⟨offsets⟩ true).state = some .SyntheticTail := by
        cases offsets with
        | nil => exact absurd rfl hne
        | cons a l => rfl
      simpa [hstate] using hneq

/-- Witness of C18: the chunk `[12, 17]` folded into `[5, 10]` with synthetic tail `10`, and
the chunk without entries. -/
theorem append_list_agrees_with_appends_witness :
    ((LinePosition.mk ⟨[5, 10]⟩ true).WellFormed ∧
      (LinePosition.mk ⟨[12, 17]⟩ false).array.storage_ ≠ [] ∧
      (LinePosition.mk ⟨[]⟩ false).array.storage_ = []) ∧
      (LinePosition.mk ⟨[5, 10]⟩ true).append_list ⟨⟨[12, 17]⟩, false⟩ =
        LinePosition.appendEach ⟨⟨[5, 10]⟩, true⟩ ⟨⟨[12, 17]⟩, false⟩ ∧
      ((LinePosition.mk ⟨[5, 10]⟩ true).append_list ⟨⟨[]⟩, false⟩ ≠
          LinePosition.appendEach ⟨⟨[5, 10]⟩, true⟩ ⟨⟨[]⟩, false⟩ ↔
        (LinePosition.mk ⟨[5, 10]⟩ true).state = some .SyntheticTail) ∧
      (LinePosition.mk ⟨[5, 10]⟩ true).append_list ⟨⟨[]⟩, false⟩ = .ok ⟨⟨[5]⟩, false⟩ ∧
      LinePosition.appendEach ⟨⟨[5, 10]⟩, true⟩ ⟨⟨[]⟩, false⟩ = .ok ⟨⟨[5, 10]⟩, false⟩ :=
  ⟨⟨by decide, by decide, by decide⟩,
    (append_list_agrees_with_appends ⟨⟨[5, 10]⟩, true⟩ ⟨⟨[12, 17]⟩, false⟩ (by decide)).1
      (by decide),
    ((append_list_agrees_with_appends ⟨⟨[5, 10]⟩, true⟩ ⟨⟨[]⟩, false⟩ (by decide)).2
      (by decide)).2.2,
    by decide, by decide⟩

end Klogg
